import Mathlib

/-!
# Verification of `readup` (main.go)

`readup` is a small Go utility that scans a README-style document for fenced
code blocks (lines starting with three backticks), runs the command named on a
block's first inner line when that line starts with the directive mark
(greater-than, space), and splices the command's output back into the block.
A confirm workflow then diffs and conditionally writes the result.

This file is a shallow embedding of that program:

* Go strings are modelled as `List Char` (`Str`); byte indexing in the source
  only ever happens on ASCII prefixes, where byte = character.
* `scanStepP`/`scanFoldP` embed the line loop of `readup` (main.go:111-150)
  with the command runner abstracted as a pure function, and
  `scanStepE`/`scanFoldE` embed the same loop with a fallible runner
  (`execCommand` can fail), as in the source.
* `readup` embeds the whole scanner function including its treatment of file
  open/read errors; `ptyReadLoop`/`execCommand` embed the PTY capture loop
  (main.go:50-92); `mainGo` embeds the branch structure of `main`
  (main.go:181-234).

Spec-facing definitions (`Seg`, `parseDoc`, `capturedData`, …) describe the
document structure declaratively and are related to the operational embedding
by proved lemmas.
-/

set_option maxHeartbeats 1000000

/-- Go strings, modelled as lists of characters. -/
abbrev Str := List Char

/-- The newline character used by `strings.Join(lines, "\n")` and line reading. -/
def newlineChar : Char := '\n'

/-- The carriage-return character removed by `execCommand`'s normalization. -/
def crChar : Char := '\r'

/-- The fence token: a line opens/closes a code block iff it starts with
three backticks (`strings.HasPrefix(line, "` + "```" + `")`, main.go:122/130). -/
def fenceMark : Str := "```".toList

/-- The directive mark checked on a block's first inner line
(`strings.HasPrefix(codeBlock[1], "> ")`, main.go:135). -/
def directiveMark : Str := "> ".toList

/-- The literal closing fence line appended after a splice (main.go:147). -/
def fenceLine : Str := "```".toList

/-- `strings.HasPrefix(line, "` + "```" + `")`. -/
def isFence (l : Str) : Bool := fenceMark.isPrefixOf l

/-- Splitting a string into the chunks between newline characters
(`strings.Split(s, "\n")` semantics).  Used to describe how an embedded
command output expands into lines inside the rewritten document.  Note that
this is not by itself a model of re-reading a whole file: see
`bufioScanLines`. -/
def splitLines (s : Str) : List Str := s.splitOn newlineChar

/-- `strings.Join(lines, "\n")` (main.go:152). -/
def joinLines (ls : List Str) : Str := List.intercalate [newlineChar] ls

/-- How a later run of the tool sees content written by an earlier run:
`bufio.Scanner` with the default `ScanLines` splitter (main.go:110-112).
Every newline character ends a line, but a trailing newline does not produce
a final empty line, and empty content has no lines at all.  (`ScanLines`
also strips a carriage return before each newline; the theorems that use
this definition hypothesize carriage-return-free content, where that rule
never fires.) -/
def bufioScanLines (s : Str) : List Str :=
  match s.getLast? with
  | none => []
  | some c => if c = newlineChar then (splitLines s).dropLast else splitLines s

/-- `strings.Split(codeBlock[1][2:], " ")` (main.go:136): strip the
two-character directive mark and split the remainder on single spaces. -/
def parseDirective (l : Str) : List Str := (l.drop 2).splitOn ' '

/-- The scanner's loop state: the output line buffer `lines`, the
`inCodeBlock` flag and the `codeBlock` accumulator (main.go:105-107). -/
structure ScanState where
  lines : List Str
  inCodeBlock : Bool
  codeBlock : List Str
deriving DecidableEq, Repr

/-- The scanner's initial state (all empty / false, main.go:105-107). -/
def initState : ScanState := ⟨[], false, []⟩

/-- One iteration of the scanner loop of `readup` (main.go:111-150), with the
command runner abstracted as a pure function `run`.  Faithful to the source:
the line is first appended to `lines` (l.113) and, when inside a block, to
`codeBlock` (l.116-118); an opening fence starts a fresh block and `continue`s
(l.122-126); a fence seen while inside a block closes it (l.130-149): if the
block's line at index 1 starts with the directive mark, the derived command is
run and the splice keeps `lines[:len(lines)-len(codeBlock)+2]` (opening fence
and directive line), then appends the output and a bare closing fence. -/
def scanStepP (run : List Str → Str) (st : ScanState) (line : Str) : ScanState :=
  let lines := st.lines ++ [line]
  let codeBlock := if st.inCodeBlock then st.codeBlock ++ [line] else st.codeBlock
  if !st.inCodeBlock && isFence line then
    { lines := lines, inCodeBlock := true, codeBlock := [line] }
  else if st.inCodeBlock && isFence line then
    if directiveMark.isPrefixOf ((codeBlock[1]?).getD []) then
      let out := run (parseDirective ((codeBlock[1]?).getD []))
      let blockStart := lines.length - codeBlock.length + 2
      { lines := lines.take blockStart ++ [out, fenceLine],
        inCodeBlock := false, codeBlock := codeBlock }
    else
      { lines := lines, inCodeBlock := false, codeBlock := codeBlock }
  else
    { lines := lines, inCodeBlock := st.inCodeBlock, codeBlock := codeBlock }

/-- The scanner loop over a list of input lines (pure runner). -/
def scanFoldP (run : List Str → Str) (st : ScanState) (doc : List Str) : ScanState :=
  doc.foldl (scanStepP run) st

/-- The line buffer produced by scanning `doc` from the initial state. -/
def readupLinesP (run : List Str → Str) (doc : List Str) : List Str :=
  (scanFoldP run initState doc).lines

/-- The document string returned by `readup` on input lines `doc`
(`strings.Join(lines, "\n")`, main.go:152), pure-runner version. -/
def readupP (run : List Str → Str) (doc : List Str) : Str :=
  joinLines (readupLinesP run doc)

/-- One iteration of the scanner loop with a fallible runner: identical to
`scanStepP` except that a runner error aborts (main.go:137-140). -/
def scanStepE (r : List Str → Except Str Str) (st : ScanState) (line : Str) :
    Except Str ScanState :=
  let lines := st.lines ++ [line]
  let codeBlock := if st.inCodeBlock then st.codeBlock ++ [line] else st.codeBlock
  if !st.inCodeBlock && isFence line then
    .ok { lines := lines, inCodeBlock := true, codeBlock := [line] }
  else if st.inCodeBlock && isFence line then
    if directiveMark.isPrefixOf ((codeBlock[1]?).getD []) then
      match r (parseDirective ((codeBlock[1]?).getD [])) with
      | .error e => .error e
      | .ok out =>
        let blockStart := lines.length - codeBlock.length + 2
        .ok { lines := lines.take blockStart ++ [out, fenceLine],
              inCodeBlock := false, codeBlock := codeBlock }
    else
      .ok { lines := lines, inCodeBlock := false, codeBlock := codeBlock }
  else
    .ok { lines := lines, inCodeBlock := st.inCodeBlock, codeBlock := codeBlock }

/-- The scanner loop over input lines with a fallible runner. -/
def scanFoldE (r : List Str → Except Str Str) (st : ScanState) :
    List Str → Except Str ScanState
  | [] => .ok st
  | l :: ls =>
    match scanStepE r st l with
    | .error e => .error e
    | .ok st' => scanFoldE r st' ls

/-- What the scanner's underlying reader delivered: the lines obtained from
successful `bufio.Scanner.Scan` calls, and, when the loop stopped because of a
read failure rather than end of file, that failure (which `scanner.Err()`
would report).  The Go code never calls `scanner.Err()`, which is why the
field is carried here explicitly: `readup` must be shown to ignore it. -/
structure FileRead where
  lines : List Str
  readErr : Option Str
deriving DecidableEq, Repr

/-- The whole `readup` function (main.go:98-153).  `openRes` is the result of
`os.Open`: an open failure is returned immediately (l.99-102).  On success the
line loop runs over the lines the scanner delivered and the joined buffer is
returned.  Faithful to the source, the terminal read error (`fr.readErr`) is
never consulted: `scanner.Err()` is not checked after the loop. -/
def readup (openRes : Except Str FileRead) (r : List Str → Except Str Str) :
    Except Str Str :=
  match openRes with
  | .error e => .error e
  | .ok fr =>
    match scanFoldE r initState fr.lines with
    | .error e => .error e
    | .ok st => .ok (joinLines st.lines)

/-- A result of one `ptyFile.Read(buf)` call (main.go:75): the bytes read and
the returned error, where `none` is a nil error, `some none`-like end-of-data
is represented by `ReadErr.eofMark`, and any other failure by
`ReadErr.other`. -/
inductive ReadErr where
  | eofMark
  | other (msg : Str)
deriving DecidableEq, Repr

/-- One read event on the PTY stream: the data delivered (`n = data.length`)
together with the error returned alongside it. -/
structure ReadEv where
  data : Str
  err : Option ReadErr
deriving DecidableEq, Repr

/-- The PTY read loop of `execCommand` (main.go:72-83): on each read, an error
other than end-of-data aborts; otherwise a zero-length read breaks the loop;
otherwise the data is appended and reading continues.  A finite event list
models the stream; reads past its end return no data (break). -/
def ptyReadLoop : List ReadEv → Str → Except Str Str
  | [], acc => .ok acc
  | ev :: rest, acc =>
    match ev.err with
    | some (ReadErr.other m) => .error m
    | _ => if ev.data = [] then .ok acc else ptyReadLoop rest (acc ++ ev.data)

/-- `strings.Replace(output, "\r", "", -1)` (main.go:86): delete every
carriage-return character. -/
def removeCR (s : Str) : Str := s.filter (fun c => c ≠ crChar)

/-- `cmd[0]` (main.go:60): the program name of the derived command. -/
def commandProg (cmd : List Str) : Str := cmd.headD []

/-- `args` (main.go:55-58): `cmd[1:]` when the command has more than one
token, else the empty argument list. -/
def commandArgs (cmd : List Str) : List Str :=
  if cmd.length > 1 then cmd.drop 1 else []

/-- `execCommand` (main.go:50-92).  `ptyStart` is the result of
`pty.StartWithSize`: a failure is returned (l.66-69).  On success the read
loop captures the stream and the captured text is returned with every
carriage return removed (l.85-91).  The child's exit status is an argument
only to record that the function never inspects it — it does not occur on the
right-hand side. -/
def execCommand (cmd : List Str) (pr : Bool)
    (ptyStart : Except Str (List ReadEv)) (exitStatus : Int) : Except Str Str :=
  match ptyStart with
  | .error e => .error e
  | .ok stream =>
    match ptyReadLoop stream [] with
    | .error e => .error e
    | .ok out => .ok (removeCR out)

/-- `strings.TrimSpace` (main.go:215): strip leading and trailing whitespace. -/
def trimStr (s : Str) : Str :=
  ((s.dropWhile Char.isWhitespace).reverse.dropWhile Char.isWhitespace).reverse

/-- `strings.ToLower` (main.go:215), character by character. -/
def lowerStr (s : Str) : Str := s.map Char.toLower

/-- Observable outcome of one run of `main` (main.go:181-234): the process
exit code, whether the `cp` of the scratch file over the original was invoked
(main.go:220), and whether the scratch file was removed (main.go:227). -/
structure MainOutcome where
  exitCode : Nat
  cpInvoked : Bool
  tempRemoved : Bool
deriving DecidableEq, Repr

/-- The branch structure of `main` (main.go:181-234): scan, stage, diff, each
aborting with exit 1 on failure; then the confirmation check
`strings.ToLower(strings.TrimSpace(text)) != "y"` exits 0 with no further
effect (main.go:215-217); then `cp` (exit 1 on failure, before the remove);
then `os.Remove` of the scratch file (exit 1 on failure); then exit 0.
`scanRes`, `tmpRes`, `diffRes` are the results of `readup`, `writeTempFile`
and the `diff` subprocess; `cpOk`/`rmOk` whether `cp`/`os.Remove` succeed. -/
def mainGo (scanRes : Except Str Str) (tmpRes : Except Str Str)
    (diffRes : Except Str Str) (confirm : Str) (cpOk rmOk : Bool) : MainOutcome :=
  match scanRes with
  | .error _ => ⟨1, false, false⟩
  | .ok _ =>
    match tmpRes with
    | .error _ => ⟨1, false, false⟩
    | .ok _ =>
      match diffRes with
      | .error _ => ⟨1, false, false⟩
      | .ok _ =>
        if lowerStr (trimStr confirm) ≠ "y".toList then ⟨0, false, false⟩
        else if !cpOk then ⟨1, true, false⟩
        else if !rmOk then ⟨1, true, false⟩
        else ⟨0, true, true⟩

/-! ## Declarative document structure

A document (a list of newline-free lines) decomposes into plain lines outside
blocks, closed fenced blocks, and at most one trailing unterminated block.
These definitions describe that structure; `parseDoc` computes it and is
related to the scanner by the lemmas below. -/

/-- A document segment: a plain line outside any block, or a closed fenced
block with its opening fence line, inner lines, and closing fence line. -/
inductive Seg where
  | plain (l : Str)
  | block (f : Str) (inner : List Str) (c : Str)
deriving DecidableEq, Repr

/-- The lines a segment occupies in the document. -/
def Seg.toLines : Seg → List Str
  | .plain l => [l]
  | .block f inner c => f :: inner ++ [c]

/-- Well-formedness of a segment with respect to the fence test: plain lines
are not fences; a block is delimited by fence lines and its inner lines are
not fences. -/
def Seg.WF : Seg → Prop
  | .plain l => isFence l = false
  | .block f inner c =>
    isFence f = true ∧ isFence c = true ∧ ∀ l ∈ inner, isFence l = false

/-- Eligibility of a segment: a closed block whose first inner line starts
with the directive mark. -/
def Seg.elig : Seg → Bool
  | .block _ (d :: _) _ => directiveMark.isPrefixOf d
  | _ => false

/-- The lines a segment contributes to the scan output: an eligible block is
replaced by opening fence, directive line, command output (one buffer entry),
and a bare closing fence; everything else is unchanged. -/
def Seg.updLines (run : List Str → Str) : Seg → List Str
  | .plain l => [l]
  | .block f inner c =>
    match inner with
    | [] => [f, c]
    | d :: rest =>
      if directiveMark.isPrefixOf d then
        [f, d, run (parseDirective d), fenceLine]
      else
        f :: (d :: rest) ++ [c]

/-- The segment a scanned eligible block re-parses as when the scan output is
split into lines again: the output buffer entry expands to its lines and the
closing fence is the bare fence line. -/
def Seg.upd (run : List Str → Str) : Seg → Seg
  | .plain l => .plain l
  | .block f inner c =>
    match inner with
    | [] => .block f [] c
    | d :: rest =>
      if directiveMark.isPrefixOf d then
        .block f (d :: splitLines (run (parseDirective d))) fenceLine
      else
        .block f (d :: rest) c

/-- The lines of an optional trailing unterminated block (opening fence plus
inner lines, no closing fence before end of input). -/
def tailLines : Option (Str × List Str) → List Str
  | none => []
  | some (f, inner) => f :: inner

/-- Well-formedness of the trailing unterminated block. -/
def TailWF : Option (Str × List Str) → Prop
  | none => True
  | some (f, inner) => isFence f = true ∧ ∀ l ∈ inner, isFence l = false

/-- Rendering a decomposition back into document lines. -/
def renderDoc (p : List Seg × Option (Str × List Str)) : List Str :=
  p.1.flatMap Seg.toLines ++ tailLines p.2

/-- One step of the structural parser: outside any block a fence opens one
and any other line is plain; inside a block a fence closes it and any other
line joins its inner lines. -/
def parseStep (acc : List Seg × Option (Str × List Str)) (l : Str) :
    List Seg × Option (Str × List Str) :=
  match acc.2 with
  | none =>
    if isFence l then (acc.1, some (l, [])) else (acc.1 ++ [Seg.plain l], none)
  | some (f, inner) =>
    if isFence l then (acc.1 ++ [Seg.block f inner l], none)
    else (acc.1, some (f, inner ++ [l]))

/-- Structural decomposition of a document into segments and an optional
trailing unterminated block. -/
def parseDoc (doc : List Str) : List Seg × Option (Str × List Str) :=
  doc.foldl parseStep ([], none)

/-- A document has no eligible block: no closed fenced block's first inner
line starts with the directive mark. -/
def noEligibleBlocks (doc : List Str) : Bool :=
  (parseDoc doc).1.all (fun s => !s.elig)

/-! ## Declarative description of the PTY capture loop -/

/-- A read event lets the capture loop continue iff it reports no failure
other than end-of-data and delivers at least one byte. -/
def evContinues (ev : ReadEv) : Bool :=
  (match ev.err with
   | some (ReadErr.other _) => false
   | _ => true) && !(ev.data.isEmpty)

/-- The data captured by the loop: the concatenation of the data of the
longest prefix of continuing events. -/
def capturedData (s : List ReadEv) : Str :=
  ((s.takeWhile evContinues).map ReadEv.data).flatten

/-- The first event at which the loop stops, if any. -/
def firstStop (s : List ReadEv) : Option ReadEv :=
  (s.dropWhile evContinues).head?

/-! ## Basic lemmas about fence and directive tests -/

/-- A nonempty prefix determines the head of the longer list. -/
theorem isPrefixOf_head? {p l : Str} (h : p.isPrefixOf l = true) (hp : p ≠ []) :
    l.head? = p.head? := by
  cases p with
  | nil => simp at hp
  | cons a as =>
    cases l with
    | nil => simp [List.isPrefixOf] at h
    | cons b bs =>
      simp [List.isPrefixOf] at h
      simp [h.1]

/-- A fence line never starts with the directive mark. -/
theorem fence_not_directive {l : Str} (h : isFence l = true) :
    directiveMark.isPrefixOf l = false := by
  cases hd : directiveMark.isPrefixOf l with
  | false => rfl
  | true =>
    exfalso
    have h' : fenceMark.isPrefixOf l = true := h
    have h1 := isPrefixOf_head? h' (by decide)
    have h2 := isPrefixOf_head? hd (by decide)
    rw [h1] at h2
    exact absurd h2 (by decide)

/-- A directive line is never a fence. -/
theorem directive_not_fence {l : Str} (h : directiveMark.isPrefixOf l = true) :
    isFence l = false := by
  cases hf : isFence l with
  | false => rfl
  | true => rw [fence_not_directive hf] at h; exact absurd h (by decide)

/-! ## Step characterizations of the scanner loop -/

/-- Outside a block, a non-fence line is only appended to the buffer. -/
theorem scanStepP_outside_plain (run : List Str → Str) (st : ScanState) (l : Str)
    (hst : st.inCodeBlock = false) (hl : isFence l = false) :
    scanStepP run st l = ⟨st.lines ++ [l], false, st.codeBlock⟩ := by
  simp [scanStepP, hst, hl]

/-- Outside a block, a fence line opens a fresh block. -/
theorem scanStepP_open (run : List Str → Str) (st : ScanState) (l : Str)
    (hst : st.inCodeBlock = false) (hl : isFence l = true) :
    scanStepP run st l = ⟨st.lines ++ [l], true, [l]⟩ := by
  simp [scanStepP, hst, hl]

/-- Inside a block, a non-fence line is appended to the buffer and to the
block accumulator. -/
theorem scanStepP_inside_plain (run : List Str → Str) (st : ScanState) (l : Str)
    (hst : st.inCodeBlock = true) (hl : isFence l = false) :
    scanStepP run st l = ⟨st.lines ++ [l], true, st.codeBlock ++ [l]⟩ := by
  simp [scanStepP, hst, hl]

/-- Inside a block, a fence line closes it; when the block's line at index 1
does not start with the directive mark, nothing is spliced. -/
theorem scanStepP_close_nonelig (run : List Str → Str) (L cb : List Str) (l : Str)
    (hl : isFence l = true)
    (hd : directiveMark.isPrefixOf (((cb ++ [l])[1]?).getD []) = false) :
    scanStepP run ⟨L, true, cb⟩ l = ⟨L ++ [l], false, cb ++ [l]⟩ := by
  simp [scanStepP, hl, hd]

/-- Inside a block, a fence line closes it; when the block's line at index 1
starts with the directive mark, the splice is performed. -/
theorem scanStepP_close_elig (run : List Str → Str) (L cb : List Str) (l : Str)
    (hl : isFence l = true)
    (hd : directiveMark.isPrefixOf (((cb ++ [l])[1]?).getD []) = true) :
    scanStepP run ⟨L, true, cb⟩ l =
      ⟨(L ++ [l]).take ((L ++ [l]).length - (cb ++ [l]).length + 2) ++
         [run (parseDirective (((cb ++ [l])[1]?).getD [])), fenceLine],
       false, cb ++ [l]⟩ := by
  simp [scanStepP, hl, hd]

/-- Running the loop from inside a block over non-fence lines appends them to
the buffer and to the block accumulator. -/
theorem scanFoldP_inside (run : List Str → Str) (inner : List Str)
    (hinner : ∀ l ∈ inner, isFence l = false) :
    ∀ (L cb : List Str), scanFoldP run ⟨L, true, cb⟩ inner = ⟨L ++ inner, true, cb ++ inner⟩ := by
  induction inner with
  | nil => intro L cb; simp [scanFoldP]
  | cons x xs ih =>
    intro L cb
    have hx : isFence x = false := hinner x (by simp)
    have hxs : ∀ l ∈ xs, isFence l = false := fun l hl => hinner l (by simp [hl])
    show scanFoldP run (scanStepP run ⟨L, true, cb⟩ x) xs = _
    rw [scanStepP_inside_plain run ⟨L, true, cb⟩ x rfl hx]
    rw [ih hxs (L ++ [x]) (cb ++ [x])]
    simp


/-- Unfolding the scanner loop on a cons cell. -/
theorem scanFoldP_cons (run : List Str → Str) (st : ScanState) (x : Str) (xs : List Str) :
    scanFoldP run st (x :: xs) = scanFoldP run (scanStepP run st x) xs := rfl

/-- The scanner loop splits over appended input. -/
theorem scanFoldP_append (run : List Str → Str) (st : ScanState) (xs ys : List Str) :
    scanFoldP run st (xs ++ ys) = scanFoldP run (scanFoldP run st xs) ys := by
  simp [scanFoldP]

/-! ## Scanning a well-formed segment -/

/-- Scanning the lines of one well-formed segment from any state that is
outside a block appends exactly `Seg.updLines` to the buffer and ends outside
a block: a plain line and a non-eligible block pass through unchanged, an
eligible block is spliced into opening fence, directive line, command output
and a bare closing fence. -/
theorem scanSeg (run : List Str → Str) (s : Seg) (hwf : s.WF) (st : ScanState)
    (hst : st.inCodeBlock = false) :
    ∃ cb, scanFoldP run st s.toLines = ⟨st.lines ++ s.updLines run, false, cb⟩ := by
  obtain ⟨L, b, cb0⟩ := st
  simp only [ScanState.mk.injEq] at hst
  subst hst
  cases s with
  | plain l =>
    refine ⟨cb0, ?_⟩
    show scanFoldP run ⟨L, false, cb0⟩ [l] = _
    rw [scanFoldP_cons, scanStepP_outside_plain run _ l rfl hwf]
    simp [scanFoldP, Seg.updLines]
  | block f inner c =>
    obtain ⟨hf, hc, hinner⟩ := hwf
    refine ⟨[f] ++ inner ++ [c], ?_⟩
    simp only [Seg.toLines]
    have h1 : scanFoldP run ⟨L, false, cb0⟩ ((f :: inner) ++ [c])
        = scanStepP run (scanFoldP run (scanStepP run ⟨L, false, cb0⟩ f) inner) c := by
      rw [scanFoldP_append]; rfl
    rw [h1, scanStepP_open run _ f rfl hf, scanFoldP_inside run inner hinner]
    cases inner with
    | nil =>
      have hd : directiveMark.isPrefixOf (((([f] ++ ([] : List Str)) ++ [c])[1]?).getD [])
          = false := by simpa using fence_not_directive hc
      rw [scanStepP_close_nonelig run _ _ c hc hd]
      simp [Seg.updLines]
    | cons d rest =>
      have hidx : ((([f] ++ (d :: rest)) ++ [c])[1]?).getD ([] : Str) = d := by simp
      cases helig : directiveMark.isPrefixOf d with
      | false =>
        have hd : directiveMark.isPrefixOf (((([f] ++ (d :: rest)) ++ [c])[1]?).getD [])
            = false := by rwa [hidx]
        rw [scanStepP_close_nonelig run _ _ c hc hd]
        simp [Seg.updLines, helig]
      | true =>
        have hd : directiveMark.isPrefixOf (((([f] ++ (d :: rest)) ++ [c])[1]?).getD [])
            = true := by rwa [hidx]
        rw [scanStepP_close_elig run _ _ c hc hd]
        rw [hidx]
        have hlen : (((L ++ [f]) ++ (d :: rest)) ++ [c]).length
            - (([f] ++ (d :: rest)) ++ [c]).length + 2 = L.length + 2 := by
          simp
        rw [hlen]
        have hsplit : ((L ++ [f]) ++ (d :: rest)) ++ [c]
            = (L ++ [f, d]) ++ (rest ++ [c]) := by simp
        rw [hsplit]
        have htake : L.length + 2 = (L ++ [f, d]).length + 0 := by simp
        rw [htake, List.take_append]
        simp [Seg.updLines, helig]

/-- Scanning the rendered lines of a list of well-formed segments from any
outside state appends `flatMap updLines` to the buffer and ends outside. -/
theorem scanSegs (run : List Str → Str) (segs : List Seg) (hwf : ∀ s ∈ segs, s.WF) :
    ∀ st : ScanState, st.inCodeBlock = false →
    ∃ cb, scanFoldP run st (segs.flatMap Seg.toLines) =
      ⟨st.lines ++ segs.flatMap (Seg.updLines run), false, cb⟩ := by
  induction segs with
  | nil =>
    intro st hst
    obtain ⟨L, b, cb0⟩ := st
    simp only [ScanState.mk.injEq] at hst
    subst hst
    exact ⟨cb0, by simp [scanFoldP]⟩
  | cons s rest ih =>
    intro st hst
    have hs : s.WF := hwf s (by simp)
    have hrest : ∀ t ∈ rest, t.WF := fun t ht => hwf t (by simp [ht])
    rw [List.flatMap_cons, scanFoldP_append]
    obtain ⟨cb1, h1⟩ := scanSeg run s hs st hst
    rw [h1]
    obtain ⟨cb2, h2⟩ := ih hrest ⟨st.lines ++ s.updLines run, false, cb1⟩ rfl
    rw [h2]
    exact ⟨cb2, by simp⟩

/-- Scanning an opening fence followed by non-fence lines, from an outside
state, appends those lines unchanged and ends inside the (unterminated)
block. -/
theorem scanTail (run : List Str → Str) (f : Str) (inner : List Str)
    (hf : isFence f = true) (hinner : ∀ l ∈ inner, isFence l = false)
    (st : ScanState) (hst : st.inCodeBlock = false) :
    scanFoldP run st (f :: inner) = ⟨st.lines ++ f :: inner, true, f :: inner⟩ := by
  obtain ⟨L, b, cb0⟩ := st
  simp only [ScanState.mk.injEq] at hst
  subst hst
  rw [scanFoldP_cons, scanStepP_open run _ f rfl hf,
      scanFoldP_inside run inner hinner]
  simp

/-- The scan of a decomposed document: each segment contributes its
`updLines`, and the lines of a trailing unterminated block pass through
unchanged. -/
theorem scanDoc (run : List Str → Str) (segs : List Seg)
    (tl : Option (Str × List Str)) (hwf : ∀ s ∈ segs, s.WF) (htl : TailWF tl) :
    readupLinesP run (renderDoc (segs, tl)) =
      segs.flatMap (Seg.updLines run) ++ tailLines tl := by
  cases tl with
  | none =>
    obtain ⟨cb, h⟩ := scanSegs run segs hwf initState rfl
    simp only [renderDoc, tailLines, List.append_nil, readupLinesP]
    rw [h]
    simp [initState]
  | some ft =>
    obtain ⟨f, inner⟩ := ft
    obtain ⟨hf, hinner⟩ := htl
    simp only [renderDoc, tailLines, readupLinesP]
    rw [scanFoldP_append]
    obtain ⟨cb, h⟩ := scanSegs run segs hwf initState rfl
    rw [h, scanTail run f inner hf hinner _ rfl]
    simp [initState]

/-! ## Correctness of the structural parser -/

/-- Folding the structural parser over further lines appends exactly those
lines to the rendering of the accumulated decomposition. -/
theorem parseDoc_render_aux :
    ∀ (doc : List Str) (acc : List Seg × Option (Str × List Str)),
      renderDoc (doc.foldl parseStep acc) = renderDoc acc ++ doc := by
  intro doc
  induction doc with
  | nil => intro acc; simp
  | cons l ls ih =>
    intro acc
    rw [List.foldl_cons, ih]
    obtain ⟨segs, tl⟩ := acc
    cases tl with
    | none =>
      by_cases hl : isFence l = true
      · simp [parseStep, hl, renderDoc, tailLines]
      · simp only [Bool.not_eq_true] at hl
        simp [parseStep, hl, renderDoc, tailLines, Seg.toLines]
    | some ft =>
      obtain ⟨f, inner⟩ := ft
      by_cases hl : isFence l = true
      · simp [parseStep, hl, renderDoc, tailLines, Seg.toLines]
      · simp only [Bool.not_eq_true] at hl
        simp [parseStep, hl, renderDoc, tailLines]

/-- The structural decomposition renders back to the document. -/
theorem parseDoc_render (doc : List Str) : renderDoc (parseDoc doc) = doc := by
  rw [parseDoc, parseDoc_render_aux]
  simp [renderDoc, tailLines]

/-- The structural parser only produces well-formed segments and a
well-formed trailing block. -/
theorem parseDoc_WF_aux :
    ∀ (doc : List Str) (acc : List Seg × Option (Str × List Str)),
      (∀ s ∈ acc.1, s.WF) → TailWF acc.2 →
      (∀ s ∈ (doc.foldl parseStep acc).1, s.WF) ∧ TailWF (doc.foldl parseStep acc).2 := by
  intro doc
  induction doc with
  | nil => intro acc h1 h2; exact ⟨h1, h2⟩
  | cons l ls ih =>
    intro acc h1 h2
    rw [List.foldl_cons]
    refine ih (parseStep acc l) ?_ ?_
    · obtain ⟨segs, tl⟩ := acc
      cases tl with
      | none =>
        by_cases hl : isFence l = true
        · simpa [parseStep, hl] using h1
        · simp only [Bool.not_eq_true] at hl
          simp only [parseStep, hl]
          intro s hs
          simp at hs
          rcases hs with hs | hs
          · exact h1 s hs
          · subst hs; exact hl
      | some ft =>
        obtain ⟨f, inner⟩ := ft
        by_cases hl : isFence l = true
        · simp only [parseStep, hl, if_pos]
          intro s hs
          simp at hs
          rcases hs with hs | hs
          · exact h1 s hs
          · subst hs
            obtain ⟨hf, hinner⟩ := h2
            exact ⟨hf, hl, hinner⟩
        · simp only [Bool.not_eq_true] at hl
          simpa [parseStep, hl] using h1
    · obtain ⟨segs, tl⟩ := acc
      cases tl with
      | none =>
        by_cases hl : isFence l = true
        · simp [parseStep, hl, TailWF]
        · simp only [Bool.not_eq_true] at hl
          simp [parseStep, hl, TailWF]
      | some ft =>
        obtain ⟨f, inner⟩ := ft
        by_cases hl : isFence l = true
        · simp [parseStep, hl, TailWF]
        · simp only [Bool.not_eq_true] at hl
          obtain ⟨hf, hinner⟩ := h2
          simp only [parseStep, hl]
          refine ⟨hf, ?_⟩
          intro x hx
          simp at hx
          rcases hx with hx | hx
          · exact hinner x hx
          · subst hx; exact hl

/-- Well-formedness of the decomposition of any document. -/
theorem parseDoc_WF (doc : List Str) :
    (∀ s ∈ (parseDoc doc).1, s.WF) ∧ TailWF (parseDoc doc).2 := by
  refine parseDoc_WF_aux doc ([], none) ?_ ?_
  · intro s hs; simp at hs
  · trivial

/-! ## The scanner invariant: inside a block the accumulator is nonempty -/

/-- One scanner step preserves the invariant that the block accumulator is
nonempty whenever the scanner is inside a block. -/
theorem scanStepP_inv (run : List Str → Str) (st : ScanState) (l : Str)
    (h : st.inCodeBlock = true → st.codeBlock ≠ []) :
    (scanStepP run st l).inCodeBlock = true → (scanStepP run st l).codeBlock ≠ [] := by
  obtain ⟨L, b, cb⟩ := st
  cases b with
  | false =>
    cases hl : isFence l with
    | true => rw [scanStepP_open run _ l rfl hl]; intro _; simp
    | false => rw [scanStepP_outside_plain run _ l rfl hl]; intro hh; simp at hh
  | true =>
    cases hl : isFence l with
    | false => rw [scanStepP_inside_plain run _ l rfl hl]; intro _; simp
    | true =>
      cases hd : directiveMark.isPrefixOf (((cb ++ [l])[1]?).getD []) with
      | false => rw [scanStepP_close_nonelig run L cb l hl hd]; intro hh; simp at hh
      | true => rw [scanStepP_close_elig run L cb l hl hd]; intro hh; simp at hh

/-- The invariant holds in every state the scanner loop reaches. -/
theorem scanFoldP_inv (run : List Str → Str) (doc : List Str) :
    ∀ st : ScanState, (st.inCodeBlock = true → st.codeBlock ≠ []) →
    ((scanFoldP run st doc).inCodeBlock = true → (scanFoldP run st doc).codeBlock ≠ []) := by
  induction doc with
  | nil => intro st h; exact h
  | cons l ls ih =>
    intro st h
    rw [scanFoldP_cons]
    exact ih (scanStepP run st l) (scanStepP_inv run st l h)

/-! ## Split / join algebra for lines -/

/-- `modifyHead` only touches the first list of a nonempty concatenation. -/
theorem modifyHead_append_of_ne_nil {α : Type} (g : α → α) (l l' : List α)
    (h : l ≠ []) : (l ++ l').modifyHead g = l.modifyHead g ++ l' := by
  cases l with
  | nil => exact absurd rfl h
  | cons a t => simp

/-- Splitting distributes over a concatenation through an occurrence of the
separator. -/
theorem splitOn_sep_append (x : Char) (a b : Str) :
    (a ++ x :: b).splitOn x = a.splitOn x ++ b.splitOn x := by
  induction a with
  | nil => simp [List.splitOn, List.splitOnP_cons]
  | cons y a ih =>
    simp only [List.cons_append, List.splitOn, List.splitOnP_cons] at *
    cases hyx : (y == x) with
    | true => simp [ih]
    | false =>
      simp [ih, modifyHead_append_of_ne_nil _ _ _ (List.splitOnP_ne_nil _ _)]

/-- A chunk without newline characters splits into exactly itself. -/
theorem splitLines_of_not_mem {l : Str} (h : newlineChar ∉ l) :
    splitLines l = [l] := by
  rw [splitLines, List.splitOn]
  refine List.splitOnP_eq_single _ _ ?_
  intro x hx hpx
  exact h (by rwa [eq_of_beq hpx] at hx)

/-- Unfolding `joinLines` on a list with at least two chunks. -/
theorem joinLines_cons (x : Str) (rest : List Str) (h : rest ≠ []) :
    joinLines (x :: rest) = x ++ newlineChar :: joinLines rest := by
  cases rest with
  | nil => exact absurd rfl h
  | cons y t =>
    simp [joinLines, List.intercalate, List.intersperse]

/-- `joinLines` of a single chunk. -/
theorem joinLines_single (x : Str) : joinLines [x] = x := by
  simp [joinLines, List.intercalate]

/-- Splitting the join of a nonempty chunk list splits each chunk. -/
theorem splitLines_joinLines (xs : List Str) (h : xs ≠ []) :
    splitLines (joinLines xs) = xs.flatMap splitLines := by
  induction xs with
  | nil => exact absurd rfl h
  | cons x rest ih =>
    cases hr : rest with
    | nil => simp [joinLines_single, splitLines]
    | cons y t =>
      subst hr
      rw [joinLines_cons x (y :: t) (by simp)]
      rw [splitLines, splitOn_sep_append]
      rw [show (joinLines (y :: t)).splitOn newlineChar
            = splitLines (joinLines (y :: t)) from rfl]
      rw [ih (by simp)]
      simp [splitLines]

/-! ## Re-reading a scanned document -/

/-- A segment always contributes at least one output line. -/
theorem Seg.updLines_ne_nil (run : List Str → Str) (s : Seg) :
    s.updLines run ≠ [] := by
  cases s with
  | plain l => simp [Seg.updLines]
  | block f inner c =>
    cases inner with
    | nil => simp [Seg.updLines]
    | cons d rest =>
      cases helig : directiveMark.isPrefixOf d with
      | true => simp [Seg.updLines, helig]
      | false => simp [Seg.updLines, helig]

/-- A list of newline-free lines re-splits into itself. -/
theorem flatMap_splitLines_of_no_newline (ls : List Str)
    (h : ∀ l ∈ ls, newlineChar ∉ l) : ls.flatMap splitLines = ls := by
  induction ls with
  | nil => simp
  | cons x t ih =>
    rw [List.flatMap_cons, splitLines_of_not_mem (h x (by simp)),
        ih (fun l hl => h l (by simp [hl]))]
    rfl

/-- Splitting a segment's scan output into lines yields the lines of the
re-parsed segment `Seg.upd`: only the output entry of an eligible block
expands; everything else is a single newline-free line. -/
theorem flatMap_splitLines_updLines (run : List Str → Str) (s : Seg)
    (h : ∀ l ∈ s.toLines, newlineChar ∉ l) :
    (s.updLines run).flatMap splitLines = (s.upd run).toLines := by
  cases s with
  | plain l =>
    have hl : newlineChar ∉ l := h l (by simp [Seg.toLines])
    simp [Seg.updLines, Seg.upd, Seg.toLines, splitLines_of_not_mem hl]
  | block f inner c =>
    have hf : newlineChar ∉ f := h f (by simp [Seg.toLines])
    have hc : newlineChar ∉ c := h c (by simp [Seg.toLines])
    cases inner with
    | nil =>
      simp [Seg.updLines, Seg.upd, Seg.toLines,
            splitLines_of_not_mem hf, splitLines_of_not_mem hc]
    | cons d rest =>
      have hd : newlineChar ∉ d := h d (by simp [Seg.toLines])
      cases helig : directiveMark.isPrefixOf d with
      | true =>
        have hfl : splitLines fenceLine = [fenceLine] :=
          splitLines_of_not_mem (by decide)
        simp [Seg.updLines, Seg.upd, Seg.toLines, helig,
              splitLines_of_not_mem hf, splitLines_of_not_mem hd, hfl]
      | false =>
        have hrest : ∀ l ∈ rest, newlineChar ∉ l := by
          intro l hl
          exact h l (by simp [Seg.toLines, hl])
        simp only [Seg.updLines, Seg.upd, Seg.toLines, helig, Bool.false_eq_true,
                   if_neg, ite_false]
        rw [show (f :: (d :: rest) ++ [c] : List Str).flatMap splitLines
              = splitLines f ++ ((d :: rest).flatMap splitLines ++ splitLines c) by
            simp]
        rw [splitLines_of_not_mem hf, splitLines_of_not_mem hc]
        rw [flatMap_splitLines_of_no_newline (d :: rest)
              (by intro l hl; rcases List.mem_cons.mp hl with hl | hl
                  · subst hl; exact hd
                  · exact hrest l hl)]
        simp

/-- The re-parsed segment of a scanned segment is well-formed, provided no
line of any command output is a fence line. -/
theorem Seg.upd_WF (run : List Str → Str) (s : Seg) (hwf : s.WF)
    (hout : ∀ c, ∀ ln ∈ splitLines (run c), isFence ln = false) :
    (s.upd run).WF := by
  cases s with
  | plain l => exact hwf
  | block f inner c =>
    obtain ⟨hf, hc, hinner⟩ := hwf
    cases inner with
    | nil => exact ⟨hf, hc, by simp⟩
    | cons d rest =>
      cases helig : directiveMark.isPrefixOf d with
      | false => simpa [Seg.upd, helig] using ⟨hf, hc, hinner⟩
      | true =>
        simp only [Seg.upd, helig, if_pos]
        refine ⟨hf, by decide, ?_⟩
        intro l hl
        rcases List.mem_cons.mp hl with hl | hl
        · subst hl; exact directive_not_fence helig
        · exact hout (parseDirective d) l hl

/-- Scanning a re-parsed segment produces the same output lines as scanning
the original segment: eligibility and the directive line are preserved, so
the same command is run. -/
theorem Seg.updLines_upd (run : List Str → Str) (s : Seg) :
    (s.upd run).updLines run = s.updLines run := by
  cases s with
  | plain l => rfl
  | block f inner c =>
    cases inner with
    | nil => rfl
    | cons d rest =>
      cases helig : directiveMark.isPrefixOf d with
      | false => simp [Seg.upd, Seg.updLines, helig]
      | true => simp [Seg.upd, Seg.updLines, helig]

/-- Pointwise-equal functions give equal `flatMap`s. -/
theorem flatMap_congr_of_mem {α β : Type} {l : List α} {f g : α → List β}
    (h : ∀ x ∈ l, f x = g x) : l.flatMap f = l.flatMap g := by
  induction l with
  | nil => rfl
  | cons x t ih =>
    rw [List.flatMap_cons, List.flatMap_cons, h x (by simp),
        ih (fun y hy => h y (by simp [hy]))]

/-- A line of a segment of a decomposition is a line of the rendered
document. -/
theorem seg_line_mem_render {segs : List Seg} {tl : Option (Str × List Str)}
    {s : Seg} {l : Str} (hs : s ∈ segs) (hl : l ∈ s.toLines) :
    l ∈ renderDoc (segs, tl) := by
  refine List.mem_append_left _ ?_
  exact List.mem_flatMap.mpr ⟨s, hs, hl⟩

/-- A line of the trailing block of a decomposition is a line of the rendered
document. -/
theorem tail_line_mem_render {segs : List Seg} {tl : Option (Str × List Str)}
    {l : Str} (hl : l ∈ tailLines tl) : l ∈ renderDoc (segs, tl) :=
  List.mem_append_right _ hl

/-! ## Re-reading written content with ScanLines semantics -/

/-- A fence line is nonempty. -/
theorem fence_ne_nil {l : Str} (h : isFence l = true) : l ≠ [] := by
  intro h0
  subst h0
  exact absurd h (by decide)

/-- A segment occupies at least one document line. -/
theorem Seg.toLines_ne_nil (s : Seg) : s.toLines ≠ [] := by
  cases s with
  | plain l => simp [Seg.toLines]
  | block f inner c => simp [Seg.toLines]

/-- The last character of a join is the last character of its last chunk,
when that chunk is nonempty. -/
theorem joinLines_getLast (xs : List Str) (z : Str) (hz : xs.getLast? = some z)
    (hzne : z ≠ []) : (joinLines xs).getLast? = z.getLast? := by
  induction xs with
  | nil => simp at hz
  | cons x rest ih =>
    cases hr : rest with
    | nil =>
      subst hr
      simp only [List.getLast?_singleton, Option.some.injEq] at hz
      subst hz
      rw [joinLines_single]
    | cons y t =>
      subst hr
      rw [List.getLast?_cons_cons] at hz
      rw [joinLines_cons x (y :: t) (by simp)]
      have hne : joinLines (y :: t) ≠ [] := by
        intro h0
        have hih := ih hz
        rw [h0] at hih
        exact hzne (List.getLast?_eq_none_iff.mp hih.symm)
      calc (x ++ newlineChar :: joinLines (y :: t)).getLast?
          = (newlineChar :: joinLines (y :: t)).getLast? :=
            List.getLast?_append_cons x newlineChar _
        _ = (joinLines (y :: t)).getLast? := by
            cases hj : joinLines (y :: t) with
            | nil => exact absurd hj hne
            | cons a b => exact List.getLast?_cons_cons
        _ = z.getLast? := ih hz

/-- When the content does not end with a newline character, `ScanLines`
yields exactly the newline-split chunks (no trailing empty line is
dropped). -/
theorem bufioScanLines_eq_splitLines (s : Str) (c : Char) (h : s.getLast? = some c)
    (hc : c ≠ newlineChar) : bufioScanLines s = splitLines s := by
  unfold bufioScanLines
  rw [h]
  simp [hc]

/-- The last line of a scan's output buffer: it is nonempty and
newline-free, provided the last line of the scanned document is nonempty.
It is a line of the input document (whose lines are newline-free), a fence
line, or the literal closing fence. -/
theorem S1lines_getLast (run : List Str → Str) (segs : List Seg)
    (tl : Option (Str × List Str)) (hwf : ∀ s ∈ segs, s.WF) (htl : TailWF tl)
    (hnl : ∀ l ∈ renderDoc (segs, tl), newlineChar ∉ l)
    (hlast : (renderDoc (segs, tl)).getLast? ≠ some [])
    (hne : segs.flatMap (Seg.updLines run) ++ tailLines tl ≠ []) :
    ∃ z, (segs.flatMap (Seg.updLines run) ++ tailLines tl).getLast? = some z
      ∧ z ≠ [] ∧ newlineChar ∉ z := by
  cases tl with
  | some ft =>
    obtain ⟨f, inner⟩ := ft
    obtain ⟨hf, hinner⟩ := htl
    rw [show tailLines (some (f, inner)) = f :: inner from rfl,
        List.getLast?_append_cons]
    rcases List.eq_nil_or_concat inner with hi | ⟨as, a, hi⟩
    · subst hi
      refine ⟨f, by simp, fence_ne_nil hf, ?_⟩
      intro hmem
      exact hnl f (tail_line_mem_render (by simp [tailLines])) hmem
    · subst hi
      have hshape : (f :: as.concat a : List Str) = (f :: as) ++ [a] := by simp
      refine ⟨a, ?_, ?_, ?_⟩
      · rw [hshape]
        exact List.getLast?_concat _
      · intro h0
        apply hlast
        rw [show renderDoc (segs, some (f, as.concat a))
              = segs.flatMap Seg.toLines ++ (f :: as.concat a) from rfl]
        rw [List.getLast?_append_of_ne_nil _ (by simp), hshape,
            List.getLast?_concat, h0]
      · intro hmem
        refine hnl a (tail_line_mem_render ?_) hmem
        show a ∈ f :: as.concat a
        simp
  | none =>
    simp only [tailLines, List.append_nil] at hne ⊢
    rcases List.eq_nil_or_concat segs with hs | ⟨ss, s, hs⟩
    · subst hs
      simp at hne
    · subst hs
      have hcat : (ss.concat s : List Seg) = ss ++ [s] := by simp
      rw [hcat] at hne hwf hnl hlast ⊢
      have hsWF : s.WF := hwf s (by simp)
      have hsmem : s ∈ ss ++ [s] := by simp
      have hflat : ((ss ++ [s]).flatMap (Seg.updLines run)).getLast?
          = (s.updLines run).getLast? := by
        rw [List.flatMap_append]
        rw [List.getLast?_append_of_ne_nil _ (by
          simp only [List.flatMap_cons, List.flatMap_nil, List.append_nil]
          exact Seg.updLines_ne_nil run s)]
        simp only [List.flatMap_cons, List.flatMap_nil, List.append_nil]
      rw [hflat]
      have hrlast : (renderDoc (ss ++ [s], none)).getLast?
          = (s.toLines).getLast? := by
        rw [show renderDoc (ss ++ [s], none)
              = (ss ++ [s]).flatMap Seg.toLines ++ tailLines none from rfl]
        simp only [tailLines, List.append_nil, List.flatMap_append]
        rw [List.getLast?_append_of_ne_nil _ (by
          simp only [List.flatMap_cons, List.flatMap_nil, List.append_nil]
          exact Seg.toLines_ne_nil s)]
        simp only [List.flatMap_cons, List.flatMap_nil, List.append_nil]
      cases s with
      | plain l =>
        refine ⟨l, by simp [Seg.updLines], ?_, ?_⟩
        · intro h0
          apply hlast
          rw [hrlast]
          simp [Seg.toLines, h0]
        · intro hmem
          exact hnl l (seg_line_mem_render hsmem
            (show l ∈ (Seg.plain l).toLines by simp [Seg.toLines])) hmem
      | block f inner c =>
        obtain ⟨hbf, hbc, hbinner⟩ := hsWF
        have hcmem : (c : Str) ∈ (Seg.block f inner c).toLines := by
          simp [Seg.toLines]
        cases inner with
        | nil =>
          refine ⟨c, by simp [Seg.updLines], fence_ne_nil hbc, ?_⟩
          intro hmem
          exact hnl c (seg_line_mem_render hsmem hcmem) hmem
        | cons d rest =>
          cases helig : directiveMark.isPrefixOf d with
          | true =>
            refine ⟨fenceLine, ?_, by decide, by decide⟩
            simp [Seg.updLines, helig]
          | false =>
            refine ⟨c, ?_, fence_ne_nil hbc, ?_⟩
            · rw [show Seg.updLines run (Seg.block f (d :: rest) c)
                    = (f :: d :: rest) ++ [c] by simp [Seg.updLines, helig]]
              exact List.getLast?_concat _
            · intro hmem
              exact hnl c (seg_line_mem_render hsmem hcmem) hmem

/-! ## Claim theorems -/

/-- **C4** (amended).  For every document whose embedded commands are
deterministic (command execution modelled as the pure function `run`), whose
last line is nonempty (the written content then does not end in a newline, so
re-reading it drops no line), and none of whose command outputs contains a
line beginning with three backticks, the scan is idempotent: applying
`readup` to the result of `readup`, re-read with `bufio.ScanLines` semantics,
yields the same document.  The newline hypothesis on `doc` says the input
lines really are lines; the carriage-return hypotheses record `execCommand`'s
output normalization, under which `ScanLines` never strips a carriage
return. -/
theorem c4_idempotent_amended (run : List Str → Str) (doc : List Str)
    (hdoc : ∀ l ∈ doc, newlineChar ∉ l ∧ crChar ∉ l)
    (hlast : doc.getLast? ≠ some [])
    (hout : ∀ c : List Str, crChar ∉ run c ∧ ∀ ln ∈ splitLines (run c), isFence ln = false) :
    readupP run (bufioScanLines (readupP run doc)) = readupP run doc := by
  by_cases hnil : doc = []
  · subst hnil; rfl
  · rcases hpd : parseDoc doc with ⟨segs, tl⟩
    have hwf := parseDoc_WF doc
    rw [hpd] at hwf
    obtain ⟨hwfs, hwft⟩ := hwf
    have hrender : renderDoc (segs, tl) = doc := by rw [← hpd, parseDoc_render]
    have hnlr : ∀ l ∈ renderDoc (segs, tl), newlineChar ∉ l := by
      rw [hrender]; exact fun l hl => (hdoc l hl).1
    have h1 : readupLinesP run doc = segs.flatMap (Seg.updLines run) ++ tailLines tl := by
      conv_lhs => rw [← hrender]
      exact scanDoc run segs tl hwfs hwft
    have hS1ne : segs.flatMap (Seg.updLines run) ++ tailLines tl ≠ [] := by
      cases segs with
      | nil =>
        intro h0
        apply hnil
        rw [← hrender]
        simp only [List.flatMap_nil, List.nil_append] at h0
        simp [renderDoc, h0]
      | cons s rest =>
        intro h0
        rw [List.flatMap_cons] at h0
        have h0' := List.append_eq_nil.mp h0
        have h0'' := List.append_eq_nil.mp h0'.1
        exact Seg.updLines_ne_nil run s h0''.1
    obtain ⟨z, hzlast, hzne, hznl⟩ :=
      S1lines_getLast run segs tl hwfs hwft hnlr
        (by rw [hrender]; exact hlast) hS1ne
    obtain ⟨c0, hzl⟩ : ∃ c0, z.getLast? = some c0 := by
      cases hz0 : z.getLast? with
      | none => exact absurd (List.getLast?_eq_none_iff.mp hz0) hzne
      | some c0 => exact ⟨c0, rfl⟩
    have hc0 : c0 ≠ newlineChar := fun hcc =>
      hznl (hcc ▸ List.mem_of_mem_getLast? (Option.mem_def.mpr hzl))
    have hS1last : (readupP run doc).getLast? = some c0 := by
      rw [readupP, h1, joinLines_getLast _ z hzlast hzne, hzl]
    rw [bufioScanLines_eq_splitLines _ c0 hS1last hc0]
    have h2 : splitLines (readupP run doc)
        = (segs.map (Seg.upd run)).flatMap Seg.toLines ++ tailLines tl := by
      rw [readupP, h1, splitLines_joinLines _ hS1ne, List.flatMap_append]
      congr 1
      · rw [List.flatMap_assoc, List.flatMap_map]
        refine flatMap_congr_of_mem ?_
        intro s hs
        exact flatMap_splitLines_updLines run s
          (fun l hl => hnlr l (seg_line_mem_render hs hl))
      · exact flatMap_splitLines_of_no_newline _
          (fun l hl => hnlr l (tail_line_mem_render hl))
    have hwfs' : ∀ t ∈ segs.map (Seg.upd run), t.WF := by
      intro t ht
      rcases List.mem_map.mp ht with ⟨s, hs, rfl⟩
      exact Seg.upd_WF run s (hwfs s hs) (fun c => (hout c).2)
    have h3 : readupLinesP run ((segs.map (Seg.upd run)).flatMap Seg.toLines ++ tailLines tl)
        = (segs.map (Seg.upd run)).flatMap (Seg.updLines run) ++ tailLines tl :=
      scanDoc run (segs.map (Seg.upd run)) tl hwfs' hwft
    have h4 : (segs.map (Seg.upd run)).flatMap (Seg.updLines run)
        = segs.flatMap (Seg.updLines run) := by
      rw [List.flatMap_map]
      exact flatMap_congr_of_mem (fun s _ => Seg.updLines_upd run s)
    show joinLines (readupLinesP run (splitLines (readupP run doc))) = readupP run doc
    rw [h2, h3, h4, ← h1]
    rfl

/-! ## Fallible-runner scan lemmas -/

/-- The fallible scanner loop splits over appended input. -/
theorem scanFoldE_append (r : List Str → Except Str Str) (st : ScanState)
    (xs ys : List Str) :
    scanFoldE r st (xs ++ ys) =
      match scanFoldE r st xs with
      | .error e => .error e
      | .ok st' => scanFoldE r st' ys := by
  induction xs generalizing st with
  | nil => simp [scanFoldE]
  | cons x t ih =>
    show (match scanStepE r st x with
          | Except.error e => Except.error e
          | Except.ok st' => scanFoldE r st' (t ++ ys)) = _
    rw [show scanFoldE r st (x :: t)
          = (match scanStepE r st x with
             | Except.error e => Except.error e
             | Except.ok st' => scanFoldE r st' t) from rfl]
    cases hstep : scanStepE r st x with
    | error e => simp
    | ok st' => simp [ih st']

/-- Outside a block, a fence line opens a fresh block (fallible runner,
no runner call, no error). -/
theorem scanStepE_open (r : List Str → Except Str Str) (st : ScanState) (l : Str)
    (hst : st.inCodeBlock = false) (hl : isFence l = true) :
    scanStepE r st l = .ok ⟨st.lines ++ [l], true, [l]⟩ := by
  simp [scanStepE, hst, hl]

/-- Inside a block, a non-fence line is appended (fallible runner, no runner
call, no error). -/
theorem scanStepE_inside_plain (r : List Str → Except Str Str) (st : ScanState)
    (l : Str) (hst : st.inCodeBlock = true) (hl : isFence l = false) :
    scanStepE r st l = .ok ⟨st.lines ++ [l], true, st.codeBlock ++ [l]⟩ := by
  simp [scanStepE, hst, hl]

/-- Running the fallible loop from inside a block over non-fence lines
appends them and never fails: no block is closed, so no command is run. -/
theorem scanFoldE_inside (r : List Str → Except Str Str) (inner : List Str)
    (hinner : ∀ l ∈ inner, isFence l = false) :
    ∀ L cb : List Str,
      scanFoldE r ⟨L, true, cb⟩ inner = .ok ⟨L ++ inner, true, cb ++ inner⟩ := by
  induction inner with
  | nil => intro L cb; simp [scanFoldE]
  | cons x xs ih =>
    intro L cb
    have hx : isFence x = false := hinner x (by simp)
    have hxs : ∀ l ∈ xs, isFence l = false := fun l hl => hinner l (by simp [hl])
    rw [scanFoldE, scanStepE_inside_plain r _ x rfl hx]
    show scanFoldE r ⟨L ++ [x], true, cb ++ [x]⟩ xs = _
    rw [ih hxs (L ++ [x]) (cb ++ [x])]
    simp

/-- **C9.**  If the document ends while a fenced block is still open, `readup`
returns successfully and leaves every line of the trailing unterminated block
unchanged in the output: no splice is performed on it and no error is raised
(no command is run for it), even when its first inner line begins with the
directive mark.  `pre` is the part of the document before the unterminated
block, `st` the scanner state it produces. -/
theorem c9_unterminated_block (r : List Str → Except Str Str) (pre : List Str)
    (st : ScanState) (f : Str) (rest : List Str)
    (hpre : scanFoldE r initState pre = .ok st) (hst : st.inCodeBlock = false)
    (hf : isFence f = true) (hrest : ∀ l ∈ rest, isFence l = false) :
    readup (.ok ⟨pre ++ f :: rest, none⟩) r = .ok (joinLines (st.lines ++ f :: rest)) := by
  have h1 : scanFoldE r initState (pre ++ f :: rest)
      = .ok ⟨st.lines ++ f :: rest, true, [f] ++ rest⟩ := by
    rw [scanFoldE_append, hpre]
    show scanFoldE r st (f :: rest) = _
    rw [scanFoldE, scanStepE_open r st f hst hf]
    show scanFoldE r ⟨st.lines ++ [f], true, [f]⟩ rest = _
    rw [scanFoldE_inside r rest hrest]
    simp
  show (match scanFoldE r initState (pre ++ f :: rest) with
        | Except.error e => Except.error e
        | Except.ok st' => Except.ok (joinLines st'.lines)) = _
  rw [h1]

/-- **C9 witness.**  A concrete document consisting only of an unterminated
block whose first inner line is a directive: the scan succeeds (with a runner
that would fail if it were ever called) and reproduces the block unchanged. -/
theorem c9_unterminated_block_witness :
    readup (.ok ⟨[] ++ "```".toList :: ["> echo hi".toList, "stale".toList], none⟩)
        (fun _ => .error "runner must not be called".toList)
      = .ok (joinLines (initState.lines ++ "```".toList ::
          ["> echo hi".toList, "stale".toList])) :=
  c9_unterminated_block (fun _ => .error "runner must not be called".toList)
    [] initState "```".toList ["> echo hi".toList, "stale".toList]
    rfl rfl (by decide) (by decide)

/-- **C2.**  `readup` propagates a file-open failure, but a read failure that
interrupts the line loop after a successful open is silently ignored: the Go
code never checks `scanner.Err()` after the loop, so the truncated document
read so far is returned as a success.  Here the underlying reader delivered
the single line `hello` and then failed; `readup` returns `.ok "hello"`
(runner irrelevant: none is called). -/
theorem c2_read_error_swallowed :
    (∀ (e : Str) (r : List Str → Except Str Str), readup (.error e) r = .error e)
    ∧ readup (.ok ⟨["hello".toList], some "disk read error".toList⟩)
        (fun _ => .error "runner unused".toList) = .ok "hello".toList := by
  exact ⟨fun e r => rfl, rfl⟩

/-- **C6.**  Whenever the confirmation line, after trimming whitespace and
lowercasing, is not exactly `y` (this includes empty input, which is what
`ReadString` yields at end of input since its error is discarded), the
workflow exits with status 0, never invokes the `cp` onto the original file
path, and (a fortiori) removes nothing: the original file is untouched. -/
theorem c6_decline_no_write (c t d confirm : Str) (cpOk rmOk : Bool)
    (h : lowerStr (trimStr confirm) ≠ "y".toList) :
    mainGo (.ok c) (.ok t) (.ok d) confirm cpOk rmOk = ⟨0, false, false⟩ := by
  have h' : ¬ (lowerStr (trimStr confirm) = ['y']) := by simpa using h
  simp [mainGo, h']

/-- **C6 witness.**  Declining with `n` exits 0 with no copy and no
removal. -/
theorem c6_decline_no_write_witness :
    mainGo (.ok "content".toList) (.ok "/tmp/readup123".toList)
        (.ok "diff out".toList) "n".toList true true = ⟨0, false, false⟩ :=
  c6_decline_no_write "content".toList "/tmp/readup123".toList
    "diff out".toList "n".toList true true (by decide)

/-- **C10.**  On the decline path the scratch file is not deleted (and the
exit status is 0); the scratch file is removed only when the confirmation was
`y` and the `cp` over the original succeeded. -/
theorem c10_scratch_kept_on_decline (c t d confirm : Str) (cpOk rmOk : Bool) :
    (lowerStr (trimStr confirm) ≠ "y".toList →
      (mainGo (.ok c) (.ok t) (.ok d) confirm cpOk rmOk).tempRemoved = false
      ∧ (mainGo (.ok c) (.ok t) (.ok d) confirm cpOk rmOk).exitCode = 0)
    ∧ ∀ sc tm df : Except Str Str,
        (mainGo sc tm df confirm cpOk rmOk).tempRemoved = true →
        lowerStr (trimStr confirm) = "y".toList ∧ cpOk = true := by
  constructor
  · intro h
    have h' : ¬ (lowerStr (trimStr confirm) = ['y']) := by simpa using h
    simp [mainGo, h']
  · intro sc tm df h
    by_cases hy : lowerStr (trimStr confirm) = "y".toList
    · cases sc <;> cases tm <;> cases df <;> cases cpOk <;> cases rmOk <;>
        simp_all [mainGo]
    · cases sc <;> cases tm <;> cases df <;> cases cpOk <;> cases rmOk <;>
        simp_all [mainGo]

/-- **C10 witness.**  Declining with an empty confirmation line leaves the
scratch file in place and exits 0. -/
theorem c10_scratch_kept_on_decline_witness :
    (mainGo (.ok "content".toList) (.ok "/tmp/readup123".toList)
        (.ok "diff out".toList) "".toList true true).tempRemoved = false
    ∧ (mainGo (.ok "content".toList) (.ok "/tmp/readup123".toList)
        (.ok "diff out".toList) "".toList true true).exitCode = 0 :=
  (c10_scratch_kept_on_decline "content".toList "/tmp/readup123".toList
    "diff out".toList "".toList true true).1 (by decide)

/-! ## Characterizing the PTY capture loop -/

/-- The capture loop, characterized declaratively: it fails with the message
of the first stopping event when that event carries an error other than
end-of-data, and otherwise succeeds with the accumulated data of all
continuing events. -/
theorem ptyReadLoop_eq (s : List ReadEv) : ∀ acc : Str,
    ptyReadLoop s acc =
      match firstStop s with
      | some ev =>
        match ev.err with
        | some (ReadErr.other m) => Except.error m
        | _ => Except.ok (acc ++ capturedData s)
      | none => Except.ok (acc ++ capturedData s) := by
  induction s with
  | nil => intro acc; simp [ptyReadLoop, firstStop, capturedData]
  | cons ev rest ih =>
    intro acc
    obtain ⟨data, err⟩ := ev
    cases err with
    | none =>
      by_cases hdata : data = []
      · subst hdata
        simp [ptyReadLoop, firstStop, capturedData, evContinues,
              List.dropWhile, List.takeWhile]
      · rw [show ptyReadLoop (⟨data, none⟩ :: rest) acc
              = ptyReadLoop rest (acc ++ data) by simp [ptyReadLoop, hdata]]
        rw [ih (acc ++ data)]
        have hcont : evContinues ⟨data, none⟩ = true := by
          simp [evContinues, List.isEmpty_iff, hdata]
        rw [show firstStop (⟨data, none⟩ :: rest) = firstStop rest by
              simp [firstStop, List.dropWhile, hcont]]
        rw [show capturedData (⟨data, none⟩ :: rest) = data ++ capturedData rest by
              simp [capturedData, List.takeWhile, hcont]]
        cases hfs : firstStop rest with
        | none => simp
        | some ev' =>
          obtain ⟨data', err'⟩ := ev'
          cases err' with
          | none => simp
          | some re =>
            cases re with
            | eofMark => simp
            | other m => simp
    | some re =>
      cases re with
      | eofMark =>
        by_cases hdata : data = []
        · subst hdata
          simp [ptyReadLoop, firstStop, capturedData, evContinues,
                List.dropWhile, List.takeWhile]
        · rw [show ptyReadLoop (⟨data, some ReadErr.eofMark⟩ :: rest) acc
                = ptyReadLoop rest (acc ++ data) by simp [ptyReadLoop, hdata]]
          rw [ih (acc ++ data)]
          have hcont : evContinues ⟨data, some ReadErr.eofMark⟩ = true := by
            simp [evContinues, List.isEmpty_iff, hdata]
          rw [show firstStop (⟨data, some ReadErr.eofMark⟩ :: rest) = firstStop rest by
                simp [firstStop, List.dropWhile, hcont]]
          rw [show capturedData (⟨data, some ReadErr.eofMark⟩ :: rest)
                = data ++ capturedData rest by
                simp [capturedData, List.takeWhile, hcont]]
          cases hfs : firstStop rest with
          | none => simp
          | some ev' =>
            obtain ⟨data', err'⟩ := ev'
            cases err' with
            | none => simp
            | some re' =>
              cases re' with
              | eofMark => simp
              | other m => simp
      | other m =>
        have hstop : evContinues ⟨data, some (ReadErr.other m)⟩ = false := by
          simp [evContinues]
        simp [ptyReadLoop, firstStop, List.dropWhile, hstop]

/-- **C7.**  `execCommand` returns an error iff pseudo-terminal allocation
fails or a read of the output stream fails with an error other than
end-of-data; in every other case it returns the captured output with every
carriage-return character deleted.  It never inspects the child's exit
status: the result does not depend on that argument.  (A non-zero exit
status only manifests as the stream ending, which is the success case.) -/
theorem c7_execCommand_spec (cmd : List Str) (pr : Bool) (ex1 ex2 : Int) :
    (∀ pty : Except Str (List ReadEv),
        execCommand cmd pr pty ex1 = execCommand cmd pr pty ex2)
    ∧ (∀ e : Str, execCommand cmd pr (.error e) ex1 = .error e)
    ∧ (∀ s : List ReadEv,
        execCommand cmd pr (.ok s) ex1 =
          match firstStop s with
          | some ⟨_, some (ReadErr.other m)⟩ => Except.error m
          | _ => Except.ok (removeCR (capturedData s)))
    ∧ (∀ t : Str, (removeCR t).contains crChar = false) := by
  refine ⟨fun pty => rfl, fun e => rfl, ?_, ?_⟩
  · intro s
    show (match ptyReadLoop s [] with
          | Except.error e => Except.error e
          | Except.ok out => Except.ok (removeCR out)) = _
    rw [ptyReadLoop_eq s []]
    cases hfs : firstStop s with
    | none => simp
    | some ev =>
      obtain ⟨data, err⟩ := ev
      cases err with
      | none => simp
      | some re =>
        cases re with
        | eofMark => simp
        | other m => simp
  · intro t
    simp [removeCR, List.mem_filter]

/-- A non-eligible segment's scan output is its own lines. -/
theorem Seg.updLines_of_not_elig (run : List Str → Str) (s : Seg)
    (he : s.elig = false) : s.updLines run = s.toLines := by
  cases s with
  | plain l => rfl
  | block f inner c =>
    cases inner with
    | nil => rfl
    | cons d rest =>
      have hd : directiveMark.isPrefixOf d = false := by simpa [Seg.elig] using he
      simp [Seg.updLines, Seg.toLines, hd]

/-- **C1 counterexample.**  On the document
````
```
> echo hi
stale output
```
````
with a runner returning `hi`, the scan produces the block
opening fence / `> echo hi` / `hi` / closing fence — the directive line is
kept, so the updated block does not consist of just the opening fence, the
output, and the closing fence as the claim states. -/
theorem c1_directive_kept_counterexample :
    readupLinesP (fun _ => "hi".toList)
        ["```".toList, "> echo hi".toList, "stale output".toList, "```".toList]
      = ["```".toList, "> echo hi".toList, "hi".toList, "```".toList]
    ∧ (["```".toList, "> echo hi".toList, "hi".toList, "```".toList] : List Str)
      ≠ ["```".toList, "hi".toList, "```".toList] := by
  constructor
  · rfl
  · decide

/-- **C1 (amended).**  For every eligible code block, the scan replaces the
block so that the updated block consists of the opening fence, the directive
line itself (kept, per the source comment "except for the command itself"),
then exactly the command's normalized output, then a closing fence line of
just the three backticks: all prior inner content of the block after the
directive line is discarded and replaced by the live output. -/
theorem c1_splice_keeps_directive (run : List Str → Str) (st : ScanState)
    (f d c : Str) (inner : List Str) (hst : st.inCodeBlock = false)
    (hf : isFence f = true) (hc : isFence c = true)
    (hd : directiveMark.isPrefixOf d = true)
    (hinner : ∀ l ∈ inner, isFence l = false) :
    (scanFoldP run st ((f :: (d :: inner)) ++ [c])).lines
      = st.lines ++ [f, d, run (parseDirective d), fenceLine] := by
  have hwf : (Seg.block f (d :: inner) c).WF := by
    refine ⟨hf, hc, ?_⟩
    intro l hl
    rcases List.mem_cons.mp hl with hl | hl
    · subst hl; exact directive_not_fence hd
    · exact hinner l hl
  obtain ⟨cb, h⟩ := scanSeg run (Seg.block f (d :: inner) c) hwf st hst
  rw [show ((f :: (d :: inner)) ++ [c] : List Str)
        = Seg.toLines (Seg.block f (d :: inner) c) from rfl, h]
  simp [Seg.updLines, hd]

/-- **C1 witness.**  The amended splice shape at the counterexample input. -/
theorem c1_splice_keeps_directive_witness :
    (scanFoldP (fun _ => "hi".toList) initState
        (("```".toList :: ("> echo hi".toList :: ["stale output".toList]))
          ++ ["```".toList])).lines
      = initState.lines ++ ["```".toList, "> echo hi".toList, "hi".toList, fenceLine] :=
  c1_splice_keeps_directive (fun _ => "hi".toList) initState
    "```".toList "> echo hi".toList "```".toList ["stale output".toList]
    rfl (by decide) (by decide) (by decide) (by decide)

/-- **C3.**  A block with zero inner lines (opening fence immediately
followed by a closing fence) is scanned without modification: its two lines
pass through unchanged and the scanner ends outside a block (non-eligible,
because the line at index 1 of the accumulated block is the closing fence,
which cannot start with the directive mark).  Moreover the inspection of
index 1 is in bounds: whenever the scanner is inside a block, the accumulated
block lines together with the just-read line have an entry at index 1. -/
theorem c3_zero_inner_block (run : List Str → Str) (st : ScanState) (f c : Str)
    (doc : List Str) (hst : st.inCodeBlock = false)
    (hf : isFence f = true) (hc : isFence c = true) :
    ((scanFoldP run st [f, c]).lines = st.lines ++ [f, c]
      ∧ (scanFoldP run st [f, c]).inCodeBlock = false)
    ∧ ((scanFoldP run initState doc).inCodeBlock = true →
        ∀ l : Str,
          (((scanFoldP run initState doc).codeBlock ++ [l])[1]?).isSome = true) := by
  constructor
  · obtain ⟨cb, h⟩ := scanSeg run (Seg.block f [] c) ⟨hf, hc, by simp⟩ st hst
    rw [show ([f, c] : List Str) = Seg.toLines (Seg.block f [] c) by
          simp [Seg.toLines], h]
    exact ⟨by simp [Seg.updLines, Seg.toLines], rfl⟩
  · intro hin l
    have hne : (scanFoldP run initState doc).codeBlock ≠ [] := by
      refine scanFoldP_inv run doc initState ?_ hin
      intro h0
      simp [initState] at h0
    have hpos : 0 < (scanFoldP run initState doc).codeBlock.length :=
      List.length_pos.mpr hne
    have hlen : 1 < ((scanFoldP run initState doc).codeBlock ++ [l]).length := by
      rw [List.length_append]
      simpa using Nat.succ_lt_succ hpos
    rw [List.getElem?_eq_getElem hlen]
    rfl

/-- **C3 witness.**  The zero-inner-line block `["``` ... ```"]` (with a
language tag on the opening fence) passes through unchanged, and inside a
block the index-1 inspection is in bounds. -/
theorem c3_zero_inner_block_witness :
    (((scanFoldP (fun _ => [] : List Str → Str) initState
          ["```go".toList, "```".toList]).lines
        = initState.lines ++ ["```go".toList, "```".toList]
      ∧ (scanFoldP (fun _ => [] : List Str → Str) initState
          ["```go".toList, "```".toList]).inCodeBlock = false)
    ∧ ((scanFoldP (fun _ => [] : List Str → Str) initState
          ["```".toList]).inCodeBlock = true →
        ∀ l : Str,
          (((scanFoldP (fun _ => [] : List Str → Str) initState
              ["```".toList]).codeBlock ++ [l])[1]?).isSome = true)) :=
  c3_zero_inner_block (fun _ => []) initState "```go".toList "```".toList
    ["```".toList] rfl (by decide) (by decide)

/-- **C5.**  A document with no eligible blocks is reproduced exactly by the
scan: the output line buffer equals the input lines, so the returned string
is exactly the newline join of the input lines (byte-for-byte up to the
trailing-newline normalization of the final join).  In addition, in any
document, the scan rewrites segment by segment, and every non-eligible
segment — a plain line outside blocks or a non-eligible fenced block —
contributes exactly its own lines, byte-identical. -/
theorem c5_roundtrip (run : List Str → Str) (doc : List Str)
    (h : noEligibleBlocks doc = true) :
    readupLinesP run doc = doc
    ∧ readupP run doc = joinLines doc
    ∧ ∀ (segs : List Seg) (tl : Option (Str × List Str)),
        (∀ s ∈ segs, s.WF) → TailWF tl →
        readupLinesP run (renderDoc (segs, tl))
            = segs.flatMap (Seg.updLines run) ++ tailLines tl
        ∧ ∀ s ∈ segs, s.elig = false → s.updLines run = s.toLines := by
  have key : readupLinesP run doc = doc := by
    rcases hpd : parseDoc doc with ⟨segs, tl⟩
    have hwf := parseDoc_WF doc
    rw [hpd] at hwf
    obtain ⟨hwfs, hwft⟩ := hwf
    have hrender : renderDoc (segs, tl) = doc := by rw [← hpd, parseDoc_render]
    have hne : ∀ s ∈ segs, s.elig = false := by
      rw [noEligibleBlocks, hpd] at h
      intro s hs
      have hall := List.all_eq_true.mp h s hs
      simpa using hall
    have hupd : ∀ s ∈ segs, s.updLines run = s.toLines :=
      fun s hs => Seg.updLines_of_not_elig run s (hne s hs)
    calc readupLinesP run doc
        = readupLinesP run (renderDoc (segs, tl)) := by rw [hrender]
      _ = segs.flatMap (Seg.updLines run) ++ tailLines tl :=
          scanDoc run segs tl hwfs hwft
      _ = segs.flatMap Seg.toLines ++ tailLines tl := by
          rw [flatMap_congr_of_mem hupd]
      _ = renderDoc (segs, tl) := rfl
      _ = doc := hrender
  refine ⟨key, by rw [readupP, key], ?_⟩
  intro segs tl hwfs hwft
  exact ⟨scanDoc run segs tl hwfs hwft,
         fun s _ he => Seg.updLines_of_not_elig run s he⟩

/-- **C5 witness.**  A concrete document with a heading, a non-eligible
fenced block and trailing text is reproduced exactly. -/
theorem c5_roundtrip_witness :
    readupLinesP (fun _ => "output".toList)
        ["# title".toList, "```go".toList, "fmt.Println".toList, "```".toList,
         "tail text".toList]
      = ["# title".toList, "```go".toList, "fmt.Println".toList, "```".toList,
         "tail text".toList] :=
  (c5_roundtrip (fun _ => "output".toList)
    ["# title".toList, "```go".toList, "fmt.Println".toList, "```".toList,
     "tail text".toList] (by decide)).1

/-- **C8.**  For an eligible block whose first inner line is
`> echo hello world`, the derived command is `["echo", "hello", "world"]`:
the two-character directive mark is stripped and the remainder split on
single spaces; `execCommand` then takes `cmd[0] = "echo"` as the program and
`cmd[1:] = ["hello", "world"]` as the arguments.  The last conjunct shows the
scanner passes exactly this list to the runner, for every runner. -/
theorem c8_directive_parsing (run : List Str → Str) :
    parseDirective "> echo hello world".toList
      = ["echo".toList, "hello".toList, "world".toList]
    ∧ commandProg ["echo".toList, "hello".toList, "world".toList] = "echo".toList
    ∧ commandArgs ["echo".toList, "hello".toList, "world".toList]
      = ["hello".toList, "world".toList]
    ∧ readupLinesP run ["```".toList, "> echo hello world".toList, "```".toList]
      = ["```".toList, "> echo hello world".toList,
         run ["echo".toList, "hello".toList, "world".toList], fenceLine] := by
  refine ⟨by decide, by decide, by decide, ?_⟩
  obtain ⟨cb, hscan⟩ := scanSeg run
    (Seg.block "```".toList ["> echo hello world".toList] "```".toList)
    ⟨by decide, by decide, by decide⟩ initState rfl
  have htl : Seg.toLines (Seg.block "```".toList ["> echo hello world".toList]
      "```".toList) = ["```".toList, "> echo hello world".toList, "```".toList] := by
    simp [Seg.toLines]
  have hp : parseDirective "> echo hello world".toList
      = ["echo".toList, "hello".toList, "world".toList] := by decide
  have hupd : Seg.updLines run
      (Seg.block "```".toList ["> echo hello world".toList] "```".toList)
      = ["```".toList, "> echo hello world".toList,
         run (parseDirective "> echo hello world".toList), fenceLine] := by
    show (if directiveMark.isPrefixOf "> echo hello world".toList then
            ["```".toList, "> echo hello world".toList,
             run (parseDirective "> echo hello world".toList), fenceLine]
          else "```".toList :: ("> echo hello world".toList :: [])
                 ++ ["```".toList]) = _
    rw [if_pos (by decide)]
  rw [readupLinesP, ← htl, hscan]
  show initState.lines ++ Seg.updLines run
      (Seg.block "```".toList ["> echo hello world".toList] "```".toList) = _
  rw [hupd, hp]
  rfl

/-- **C4 counterexample.**  Two deterministic documents on which the claim
fails.  First, a runner whose output starts with a fence line (three
backticks, newline, `foo`): the output's fence line prematurely closes the
block when the result is re-read, so the second scan changes the document
again.  Second, a document with no commands at all whose last line is empty
(a file ending in two newlines): the first run writes content ending in a
single newline, the re-read (`ScanLines`) drops the resulting trailing empty
line, and the second run's output differs. -/
theorem c4_not_idempotent_counterexample :
    readupP (fun _ => "```\nfoo".toList)
        (bufioScanLines (readupP (fun _ => "```\nfoo".toList)
          ["```".toList, "> c".toList, "x".toList, "```".toList]))
      ≠ readupP (fun _ => "```\nfoo".toList)
          ["```".toList, "> c".toList, "x".toList, "```".toList]
    ∧ readupP (fun _ => "hi".toList)
        (bufioScanLines (readupP (fun _ => "hi".toList) ["a".toList, "".toList]))
      ≠ readupP (fun _ => "hi".toList) ["a".toList, "".toList] := by
  exact ⟨by decide, by decide⟩

/-- **C4 witness.**  The amended idempotence at a concrete document whose
command output (`hi`) contains no fence line and whose last line is the
closing fence (nonempty). -/
theorem c4_idempotent_amended_witness :
    readupP (fun _ => "hi".toList)
        (bufioScanLines (readupP (fun _ => "hi".toList)
          ["# title".toList, "```".toList, "> echo hi".toList, "old".toList,
           "```".toList]))
      = readupP (fun _ => "hi".toList)
          ["# title".toList, "```".toList, "> echo hi".toList, "old".toList,
           "```".toList] :=
  c4_idempotent_amended (fun _ => "hi".toList)
    ["# title".toList, "```".toList, "> echo hi".toList, "old".toList,
     "```".toList]
    (by decide) (by decide)
    (by intro c
        show crChar ∉ "hi".toList ∧ ∀ ln ∈ splitLines "hi".toList, isFence ln = false
        decide)
